import Mathlib

/-!
Verification of the heap allocator in `src/malloc.c` (functions
`find_free_block`, `request_space`, `malloc`, `get_block_ptr`, `free`,
`realloc`, `calloc`).

Shallow embedding.  Following the spec's own design notes (§9), the singly
linked chain of `struct block_meta` records is represented as a list of
records in allocation order: the chain head is the head of the list, the
`next` field of record `i` is the implicit successor `i + 1` (absent at the
tail), and a payload pointer previously handed to a caller is the index of
its owning record (`get_block_ptr`, which steps back one `META_SIZE` offset
from a payload pointer, is the identity on indices).  Appending a record at
the tail (`last->next = block` in `request_space`) is list append.

`sbrk` is external; its outcome on a growth call is an oracle parameter
`sbrkOk : Bool` (`true`: `sbrk` returns the old break, `false`: `sbrk`
returns the `(void *)-1` sentinel).  Each growth call's requested byte
delta, `(size + META_SIZE) mod 2^64`, is appended to a log `Heap.growth` so
that "the heap-growth primitive was called" is observable, matching the
spec's "verify growth-call count unchanged" (§8).  `size_t` values are
naturals with the arithmetic that overflows in C taken mod `2^64`; the
contents of a fresh, uninitialised payload are `junk` bytes, with `junk` an
arbitrary parameter.

`assert` is active (no `NDEBUG`): a failed assertion aborts the process,
modelled by the `CRes.fatal` result.  Dereferencing a pointer that is not
a live index (a wild pointer, undefined behaviour in C) is also modelled
as `CRes.fatal`.

The first, naive `malloc` at `malloc.c:30-45` is superseded by the full
definition at `malloc.c:116-159` (a C translation unit cannot keep both);
only the latter is embedded.
-/

namespace MallocC

/-- `size_t` wraps modulo `2^64` (LP64). -/
def SIZE_T_MOD : Nat := 2 ^ 64

/-- `SIZE_MAX` from `<stdint.h>`. -/
def SIZE_MAX : Nat := 2 ^ 64 - 1

/-- `sizeof(struct block_meta)` on LP64: `size_t` (8) + pointer (8) +
`int` (4) + `int` (4). -/
def META_SIZE : Nat := 24

/-- C's conversion of a (possibly negative) integer argument to `size_t`:
reduction modulo `2^64`. -/
def toSizeT (i : Int) : Nat := (i % (SIZE_T_MOD : Int)).toNat

/-- `struct block_meta` (malloc.c:50-56), plus the payload bytes that sit
immediately after the metadata (`data`, one `Nat` per byte). -/
structure BlockMeta where
  size : Nat
  free : Bool
  magic : Nat
  data : List Nat
  deriving DecidableEq

/-- Allocator state: the chain of records hanging off `global_base`
(empty list ↔ `global_base == NULL`), plus the log of byte deltas passed
to growth calls of `sbrk`. -/
structure Heap where
  blocks : List BlockMeta
  growth : List Nat
  deriving DecidableEq

/-- Initial state: `global_base = NULL`, no `sbrk` growth call made. -/
def emptyHeap : Heap := ⟨[], []⟩

/-- Result of running a piece of C code whose assertions are active:
either a value, or an aborted process (failed `assert`, or undefined
behaviour). -/
inductive CRes (α : Type) where
  | ok : α → CRes α
  | fatal : CRes α
  deriving DecidableEq

/-- `assert(cond); k` — continue with `k` if `cond` holds, abort
otherwise. -/
def cassert {α : Type} (cond : Bool) (k : CRes α) : CRes α :=
  if cond then k else CRes.fatal

/-- In-place update of the record at index `i` (a field assignment through
a `struct block_meta *`). -/
def modifyAt {α : Type} : List α → Nat → (α → α) → List α
  | [], _, _ => []
  | a :: l, 0, f => f a :: l
  | a :: l, i + 1, f => a :: modifyAt l i f

/-- `find_free_block` (malloc.c:72-85): linear scan from the chain head for
the first record with `free` set and `size >= size`; returns its index.
The `*last` out-parameter (last record visited when the scan fails) is not
needed explicitly: appending to the chain is list append. -/
def find_free_block : List BlockMeta → Nat → Option Nat
  | [], _ => none
  | b :: l, size =>
    if b.free = true ∧ size ≤ b.size then some 0
    else (find_free_block l size).map (· + 1)

/-- The record written by `request_space` (malloc.c:109-112): requested
`size`, `next = NULL` (implicit: it goes to the tail), `free = 0`,
`magic = 0x12345678`; its payload is fresh, uninitialised memory. -/
def freshBlock (size junk : Nat) : BlockMeta :=
  { size := size, free := false, magic := 0x12345678
    data := List.replicate size junk }

/-- `request_space` (malloc.c:91-114): `sbrk(0)` to read the current break,
then `sbrk(size + META_SIZE)` (the delta a `size_t` sum, taken mod `2^64`),
then `assert((void *)block == request)` — which, single-threaded, holds
exactly when the growth call succeeded, so a failed `sbrk` fires the
assertion *before* reaching the `request == (void *)-1` check at
malloc.c:98, and the `return NULL` there is unreachable.  On success the
new record is linked at the tail (`last->next = block`) and returned
together with its index. -/
def request_space (h : Heap) (size junk : Nat) (sbrkOk : Bool) :
    CRes (Option (Heap × Nat)) :=
  let h1 : Heap := ⟨h.blocks, h.growth ++ [(size + META_SIZE) % SIZE_T_MOD]⟩
  cassert sbrkOk
    (if sbrkOk = false then
      CRes.ok none
    else
      CRes.ok (some (⟨h1.blocks ++ [freshBlock size junk], h1.growth⟩,
        h.blocks.length)))

/-- `malloc` (malloc.c:116-159).  `size` is the `size_t` argument value;
`if (size <= 0)` on an unsigned `size_t` is `size == 0`.  Empty chain:
grow and set `global_base`.  Otherwise first-fit scan; on a hit, flip
`free` to `0` and set `magic = 0x77777777` leaving `size` and the payload
untouched; on a miss, grow and append.  Returns `block + 1`, i.e. the
index of the record whose payload is handed out. -/
def malloc (h : Heap) (size junk : Nat) (sbrkOk : Bool) :
    CRes (Option Nat × Heap) :=
  if size = 0 then
    CRes.ok (none, h)
  else if h.blocks = [] then
    match request_space h size junk sbrkOk with
    | CRes.fatal => CRes.fatal
    | CRes.ok none => CRes.ok (none, h)
    | CRes.ok (some (h', i)) => CRes.ok (some i, h')
  else
    match find_free_block h.blocks size with
    | none =>
      match request_space h size junk sbrkOk with
      | CRes.fatal => CRes.fatal
      | CRes.ok none => CRes.ok (none, h)
      | CRes.ok (some (h', i)) => CRes.ok (some i, h')
    | some i =>
      CRes.ok (some i,
        ⟨modifyAt h.blocks i
          (fun b => { b with free := false, magic := 0x77777777 }),
         h.growth⟩)

/-- `malloc` called with a caller-supplied signed value (the spec's
"allocate(negative)"): the argument is converted to `size_t` at the call
boundary. -/
def mallocFromInt (h : Heap) (i : Int) (junk : Nat) (sbrkOk : Bool) :
    CRes (Option Nat × Heap) :=
  malloc h (toSizeT i) junk sbrkOk

/-- `free` (malloc.c:174-187): `NULL` is a no-op; otherwise
`get_block_ptr` recovers the owning record (on indices: the identity;
a wild pointer is undefined behaviour, modelled fatal), then
`assert(block_ptr->free == 0)` and
`assert(magic == 0x77777777 || magic == 0x12345678)`, then `free = 1`,
`magic = 0x55555555`. -/
def free (h : Heap) (ptr : Option Nat) : CRes Heap :=
  match ptr with
  | none => CRes.ok h
  | some i =>
    match h.blocks.get? i with
    | none => CRes.fatal
    | some b =>
      cassert (b.free == false)
        (cassert (b.magic == 0x77777777 || b.magic == 0x12345678)
          (CRes.ok ⟨modifyAt h.blocks i
            (fun c => { c with free := true, magic := 0x55555555 }),
           h.growth⟩))

/-- `realloc` (malloc.c:193-222): `NULL` delegates to `malloc`; if the
owning record's `size` already covers the request, return `ptr` unchanged;
otherwise `malloc` a new region, `memcpy(new_ptr, ptr, block_ptr->size)`
(copy the old record's `size` bytes into the front of the new payload),
`free(ptr)`, and return the new pointer. -/
def realloc (h : Heap) (ptr : Option Nat) (size junk : Nat) (sbrkOk : Bool) :
    CRes (Option Nat × Heap) :=
  match ptr with
  | none => malloc h size junk sbrkOk
  | some i =>
    match h.blocks.get? i with
    | none => CRes.fatal
    | some b =>
      if size ≤ b.size then
        CRes.ok (some i, h)
      else
        match malloc h size junk sbrkOk with
        | CRes.fatal => CRes.fatal
        | CRes.ok (none, h') => CRes.ok (none, h')
        | CRes.ok (some j, h') =>
          match h'.blocks.get? i with
          | none => CRes.fatal
          | some bOld =>
            let h2 : Heap :=
              ⟨modifyAt h'.blocks j
                (fun nb => { nb with
                  data := bOld.data.take bOld.size ++ nb.data.drop bOld.size }),
               h'.growth⟩
            match MallocC.free h2 (some i) with
            | CRes.fatal => CRes.fatal
            | CRes.ok h3 => CRes.ok (some j, h3)

/-- `calloc` (malloc.c:228-243): reject when
`nelem > 0 && SIZE_MAX / nelem < elsize` (the product would overflow
`size_t`) without calling `malloc`; otherwise `malloc(nelem * elsize)`
(the product a `size_t`, mod `2^64`) and `memset(ptr, 0, size)` on
success. -/
def calloc (h : Heap) (nelem elsize junk : Nat) (sbrkOk : Bool) :
    CRes (Option Nat × Heap) :=
  if 0 < nelem ∧ SIZE_MAX / nelem < elsize then
    CRes.ok (none, h)
  else
    let size := (nelem * elsize) % SIZE_T_MOD
    match malloc h size junk sbrkOk with
    | CRes.fatal => CRes.fatal
    | CRes.ok (none, h') => CRes.ok (none, h')
    | CRes.ok (some i, h') =>
      CRes.ok (some i,
        ⟨modifyAt h'.blocks i
          (fun b => { b with data := List.replicate size 0 ++ b.data.drop size }),
         h'.growth⟩)

/-- The implicit `next` link of record `i`: the following record in the
chain, absent for the tail (`next == NULL`). -/
def nextIdx (h : Heap) (i : Nat) : Option Nat :=
  if i + 1 < h.blocks.length then some (i + 1) else none

/-- Chain states reachable from the initial state by any sequence of the
four public operations that runs to completion (a fired assertion aborts
the process, so it yields no state). -/
inductive Reachable : Heap → Prop
  | empty : Reachable emptyHeap
  | mstep {h h' : Heap} {size junk : Nat} {ok : Bool} {r : Option Nat} :
      Reachable h → malloc h size junk ok = CRes.ok (r, h') → Reachable h'
  | fstep {h h' : Heap} {ptr : Option Nat} :
      Reachable h → free h ptr = CRes.ok h' → Reachable h'
  | rstep {h h' : Heap} {ptr : Option Nat} {size junk : Nat} {ok : Bool}
      {r : Option Nat} :
      Reachable h → realloc h ptr size junk ok = CRes.ok (r, h') →
      Reachable h'
  | cstep {h h' : Heap} {nelem elsize junk : Nat} {ok : Bool}
      {r : Option Nat} :
      Reachable h → calloc h nelem elsize junk ok = CRes.ok (r, h') →
      Reachable h'

/-- The diagnostic-marker invariant of C10: every record's `magic` is one
of the three constants the code writes, and `free` is set exactly on
records whose marker is the released one. -/
def MagicInv (h : Heap) : Prop :=
  ∀ b ∈ h.blocks,
    (b.magic = 0x12345678 ∨ b.magic = 0x77777777 ∨ b.magic = 0x55555555) ∧
    (b.free = true ↔ b.magic = 0x55555555)

/-! ### Basic list lemmas -/

theorem get?_some_lt {α : Type} {l : List α} {i : Nat} {b : α}
    (h : l.get? i = some b) : i < l.length := by
  induction l generalizing i with
  | nil => simp [List.get?] at h
  | cons a t ih =>
    cases i with
    | zero => simp
    | succ n =>
      simp only [List.get?] at h
      simpa using ih h

theorem get?_append_lt {α : Type} (l l' : List α) (i : Nat)
    (h : i < l.length) : (l ++ l').get? i = l.get? i := by
  induction l generalizing i with
  | nil => simp at h
  | cons a t ih =>
    cases i with
    | zero => rfl
    | succ n =>
      simp only [List.cons_append, List.get?]
      exact ih n (by simpa using h)

theorem get?_append_self {α : Type} (l : List α) (a : α) :
    (l ++ [a]).get? l.length = some a := by
  induction l with
  | nil => rfl
  | cons b t ih => exact ih

theorem length_modifyAt {α : Type} (l : List α) (i : Nat) (f : α → α) :
    (modifyAt l i f).length = l.length := by
  induction l generalizing i with
  | nil => rfl
  | cons a t ih =>
    cases i with
    | zero => rfl
    | succ n => simp [modifyAt, ih]

theorem get?_modifyAt_self {α : Type} {l : List α} {i : Nat} (f : α → α)
    {b : α} (h : l.get? i = some b) :
    (modifyAt l i f).get? i = some (f b) := by
  induction l generalizing i with
  | nil => simp [List.get?] at h
  | cons a t ih =>
    cases i with
    | zero =>
      simp only [List.get?] at h
      cases h
      rfl
    | succ n =>
      simp only [List.get?] at h ⊢
      exact ih h

theorem get?_modifyAt_ne {α : Type} (l : List α) (i j : Nat) (f : α → α)
    (h : j ≠ i) : (modifyAt l i f).get? j = l.get? j := by
  induction l generalizing i j with
  | nil => cases i <;> rfl
  | cons a t ih =>
    cases i with
    | zero =>
      cases j with
      | zero => exact absurd rfl h
      | succ m => rfl
    | succ n =>
      cases j with
      | zero => rfl
      | succ m =>
        simp only [modifyAt, List.get?]
        exact ih n m (fun e => h (by simpa using e))

theorem mem_modifyAt_cases {α : Type} {l : List α} {i : Nat} {f : α → α}
    {b : α} (h : b ∈ modifyAt l i f) : b ∈ l ∨ ∃ a, a ∈ l ∧ b = f a := by
  induction l generalizing i with
  | nil => simp [modifyAt] at h
  | cons a t ih =>
    cases i with
    | zero =>
      rcases List.mem_cons.mp h with h | h
      · exact Or.inr ⟨a, List.mem_cons_self a t, h⟩
      · exact Or.inl (List.mem_cons_of_mem a h)
    | succ n =>
      rcases List.mem_cons.mp h with h | h
      · exact Or.inl (h ▸ List.mem_cons_self a t)
      · rcases ih h with h | ⟨c, hc, hb⟩
        · exact Or.inl (List.mem_cons_of_mem a h)
        · exact Or.inr ⟨c, List.mem_cons_of_mem a hc, hb⟩

/-! ### `find_free_block` lemmas -/

/-- A successful scan returns the index of a record that is free and large
enough. -/
theorem ffb_some {l : List BlockMeta} {s i : Nat}
    (h : find_free_block l s = some i) :
    ∃ b, l.get? i = some b ∧ b.free = true ∧ s ≤ b.size := by
  induction l generalizing i with
  | nil => simp [find_free_block] at h
  | cons b t ih =>
    by_cases hb : b.free = true ∧ s ≤ b.size
    · simp only [find_free_block, if_pos hb] at h
      cases h
      exact ⟨b, rfl, hb⟩
    · simp only [find_free_block, if_neg hb] at h
      rcases Option.map_eq_some'.mp h with ⟨j, hj, hij⟩
      rcases ih hj with ⟨c, hc, hcf, hcs⟩
      refine ⟨c, ?_, hcf, hcs⟩
      subst hij
      exact hc

/-- First-fit: if record `p` is free and large enough and no earlier record
is, the scan stops exactly at `p`. -/
theorem ffb_first {l : List BlockMeta} {s p : Nat} {b : BlockMeta}
    (hb : l.get? p = some b) (hf : b.free = true) (hs : s ≤ b.size)
    (hmin : ∀ j c, j < p → l.get? j = some c → ¬(c.free = true ∧ s ≤ c.size)) :
    find_free_block l s = some p := by
  induction l generalizing p with
  | nil => simp [List.get?] at hb
  | cons a t ih =>
    cases p with
    | zero =>
      simp only [List.get?] at hb
      cases hb
      simp [find_free_block, hf, hs]
    | succ n =>
      simp only [List.get?] at hb
      have ha : ¬(a.free = true ∧ s ≤ a.size) :=
        hmin 0 a (Nat.succ_pos n) rfl
      have ht : find_free_block t s = some n := by
        refine ih hb ?_
        intro j c hj hc
        exact hmin (j + 1) c (Nat.succ_lt_succ hj) (by simpa [List.get?] using hc)
      simp [find_free_block, if_neg ha, ht]

/-! ### `malloc` lemmas -/

/-- Every `malloc` call that returns a pointer either appended one fresh
record at the tail (with one growth call) or recycled the first-fit free
record (with no growth call). -/
theorem malloc_ok_cases {h : Heap} {size junk : Nat} {ok : Bool} {p : Nat}
    {h' : Heap} (hm : malloc h size junk ok = CRes.ok (some p, h')) :
    (p = h.blocks.length ∧
      h'.blocks = h.blocks ++ [freshBlock size junk] ∧
      h'.growth = h.growth ++ [(size + META_SIZE) % SIZE_T_MOD]) ∨
    (∃ b, h.blocks.get? p = some b ∧ b.free = true ∧ size ≤ b.size ∧
      h'.blocks = modifyAt h.blocks p
        (fun c => { c with free := false, magic := 0x77777777 }) ∧
      h'.growth = h.growth) := by
  by_cases hs : size = 0
  · simp [malloc, hs] at hm
  by_cases he : h.blocks = []
  · cases ok with
    | false => simp [malloc, hs, he, request_space, cassert] at hm
    | true =>
      left
      simp only [malloc, if_neg hs, if_pos he, request_space, cassert,
        if_true, Bool.true_eq_false, CRes.ok.injEq, Prod.mk.injEq,
        Option.some.injEq, if_false] at hm
      exact ⟨hm.1.symm, by rw [← hm.2], by rw [← hm.2]⟩
  · cases hf : find_free_block h.blocks size with
    | none =>
      cases ok with
      | false => simp [malloc, hs, he, hf, request_space, cassert] at hm
      | true =>
        left
        simp only [malloc, if_neg hs, if_neg he, hf, request_space, cassert,
          if_true, Bool.true_eq_false, CRes.ok.injEq, Prod.mk.injEq,
          Option.some.injEq, if_false] at hm
        exact ⟨hm.1.symm, by rw [← hm.2], by rw [← hm.2]⟩
    | some i =>
      right
      simp only [malloc, if_neg hs, if_neg he, hf, CRes.ok.injEq,
        Prod.mk.injEq, Option.some.injEq] at hm
      rcases ffb_some hf with ⟨b, hbi, hbf, hbs⟩
      refine ⟨b, ?_, hbf, hbs, ?_, ?_⟩
      · rw [← hm.1]; exact hbi
      · rw [← hm.2, ← hm.1]
      · rw [← hm.2]

/-- With a succeeding `sbrk`, `malloc` of a positive size always returns a
pointer. -/
theorem malloc_true_ok (h : Heap) (size junk : Nat) (hs : size ≠ 0) :
    ∃ p h', malloc h size junk true = CRes.ok (some p, h') := by
  by_cases he : h.blocks = []
  · refine ⟨h.blocks.length,
      ⟨h.blocks ++ [freshBlock size junk],
       h.growth ++ [(size + META_SIZE) % SIZE_T_MOD]⟩, ?_⟩
    simp [malloc, hs, he, request_space, cassert]
  · cases hf : find_free_block h.blocks size with
    | none =>
      refine ⟨h.blocks.length,
        ⟨h.blocks ++ [freshBlock size junk],
         h.growth ++ [(size + META_SIZE) % SIZE_T_MOD]⟩, ?_⟩
      simp [malloc, hs, he, hf, request_space, cassert]
    | some i =>
      refine ⟨i,
        ⟨modifyAt h.blocks i
          (fun c => { c with free := false, magic := 0x77777777 }),
         h.growth⟩, ?_⟩
      simp [malloc, hs, he, hf]

/-- A returned pointer is a live index in the resulting chain. -/
theorem malloc_some_get {h : Heap} {size junk : Nat} {ok : Bool} {p : Nat}
    {h' : Heap} (hm : malloc h size junk ok = CRes.ok (some p, h')) :
    ∃ b, h'.blocks.get? p = some b := by
  rcases malloc_ok_cases hm with ⟨hp, hb, _⟩ | ⟨b, hbi, _, _, hb, _⟩
  · exact ⟨_, by rw [hb, hp]; exact get?_append_self _ _⟩
  · exact ⟨_, by rw [hb]; exact get?_modifyAt_self _ hbi⟩

/-- `malloc` leaves every record other than the one it returns unchanged,
and does not disturb any index that was live before the call. -/
theorem malloc_frame {h : Heap} {size junk : Nat} {ok : Bool} {p : Nat}
    {h' : Heap} (hm : malloc h size junk ok = CRes.ok (some p, h'))
    {j : Nat} (hj : j ≠ p) (hjl : j < h.blocks.length) :
    h'.blocks.get? j = h.blocks.get? j := by
  rcases malloc_ok_cases hm with ⟨_, hb, _⟩ | ⟨b, _, _, _, hb, _⟩
  · rw [hb]; exact get?_append_lt _ _ _ hjl
  · rw [hb]; exact get?_modifyAt_ne _ _ _ _ hj

/-! ### `free` lemmas -/

/-- A release whose consistency checks pass flips `free` and sets the
released marker, touching nothing else. -/
theorem free_ok {h : Heap} {i : Nat} {b : BlockMeta}
    (hb : h.blocks.get? i = some b) (hf : b.free = false)
    (hm : b.magic = 0x12345678 ∨ b.magic = 0x77777777) :
    free h (some i) = CRes.ok
      ⟨modifyAt h.blocks i
        (fun c => { c with free := true, magic := 0x55555555 }),
       h.growth⟩ := by
  simp only [free, hb]
  rcases hm with hm | hm <;> simp [cassert, hf, hm]

/-- A release aborts exactly when the record is already free or carries a
marker `allocate` never wrote. -/
theorem free_fatal_iff {h : Heap} {i : Nat} {b : BlockMeta}
    (hb : h.blocks.get? i = some b) :
    free h (some i) = CRes.fatal ↔
      ¬(b.free = false ∧ (b.magic = 0x12345678 ∨ b.magic = 0x77777777)) := by
  simp only [free, hb]
  by_cases hf : b.free = false
  · by_cases hm : b.magic = 0x77777777 ∨ b.magic = 0x12345678
    · rcases hm with hm | hm <;> simp [cassert, hf, hm]
    · push_neg at hm
      simp [cassert, hf, hm.1, hm.2]
  · have hf' : b.free = true := by
      cases hfv : b.free
      · exact absurd hfv hf
      · rfl
    simp [cassert, hf']

/-! ### Claim theorems -/

/-- C1: after releasing a region obtained from an `allocate(n)` (its record
is currently in use, carries an allocate-written marker, and has recorded
size at least `n`), a subsequent `allocate(m)` with `0 < m ≤ n` returns
exactly the same pointer, provided no free record earlier in allocation
order has recorded size at least `m` (first-fit reuse). -/
theorem c1_first_fit_reuse (h : Heap) (p : Nat) (b : BlockMeta)
    (n m junk : Nat) (ok : Bool)
    (hb : h.blocks.get? p = some b) (hfree : b.free = false)
    (hmagic : b.magic = 0x12345678 ∨ b.magic = 0x77777777)
    (hm : 0 < m) (hmn : m ≤ n) (hnb : n ≤ b.size)
    (hfirst : ∀ j c, j < p → h.blocks.get? j = some c →
      ¬(c.free = true ∧ m ≤ c.size)) :
    ∃ h' h'', MallocC.free h (some p) = CRes.ok h' ∧
      malloc h' m junk ok = CRes.ok (some p, h'') := by
  have h1 := free_ok hb hfree hmagic
  refine ⟨⟨modifyAt h.blocks p
      (fun c => { c with free := true, magic := 0x55555555 }), h.growth⟩,
    ⟨modifyAt (modifyAt h.blocks p
        (fun c => { c with free := true, magic := 0x55555555 })) p
      (fun c => { c with free := false, magic := 0x77777777 }),
     h.growth⟩, h1, ?_⟩
  have hb' : (modifyAt h.blocks p
      (fun c => { c with free := true, magic := 0x55555555 })).get? p =
      some { b with free := true, magic := 0x55555555 } :=
    get?_modifyAt_self _ hb
  have hff : find_free_block (modifyAt h.blocks p
      (fun c => { c with free := true, magic := 0x55555555 })) m = some p := by
    refine ffb_first hb' rfl (le_trans hmn hnb) ?_
    intro j c hj hc
    refine hfirst j c hj ?_
    rw [← get?_modifyAt_ne h.blocks p j _ (Nat.ne_of_lt hj)]
    exact hc
  have hne : modifyAt h.blocks p
      (fun c => { c with free := true, magic := 0x55555555 }) ≠ [] := by
    intro hnil
    have hlt := get?_some_lt hb'
    rw [hnil] at hlt
    simp at hlt
  have hm0 : m ≠ 0 := Nat.pos_iff_ne_zero.mp hm
  simp [malloc, hm0, hne, hff]

/-- C1 witness: one in-use record of size 4; release it, then allocate 3
(3 ≤ 4): the same pointer (index 0) comes back. -/
theorem c1_first_fit_reuse_witness :
    ∃ h' h'',
      MallocC.free ⟨[⟨4, false, 0x12345678, [9, 9, 9, 9]⟩], [28]⟩ (some 0) =
        CRes.ok h' ∧
      malloc h' 3 0 true = CRes.ok (some 0, h'') :=
  c1_first_fit_reuse ⟨[⟨4, false, 0x12345678, [9, 9, 9, 9]⟩], [28]⟩ 0
    ⟨4, false, 0x12345678, [9, 9, 9, 9]⟩ 4 3 0 true rfl rfl (Or.inl rfl)
    (by decide) (by decide) (by decide)
    (fun j c hj _ => absurd hj (Nat.not_lt_zero j))

/-- C3: when the owning record's recorded size already covers the request,
`resize` returns the same pointer and leaves the whole allocator state —
chain, record fields, payload contents, growth log — unchanged. -/
theorem c3_resize_noop (h : Heap) (i n junk : Nat) (ok : Bool)
    (b : BlockMeta) (hb : h.blocks.get? i = some b) (hn : n ≤ b.size) :
    realloc h (some i) n junk ok = CRes.ok (some i, h) := by
  simp only [realloc, hb]
  simp [hn]

/-- C3 witness: shrinking request 2 on a record of size 4 is the identity. -/
theorem c3_resize_noop_witness :
    realloc ⟨[⟨4, false, 0x12345678, [1, 2, 3, 4]⟩], [28]⟩ (some 0) 2 0 true =
      CRes.ok (some 0, ⟨[⟨4, false, 0x12345678, [1, 2, 3, 4]⟩], [28]⟩) :=
  c3_resize_noop ⟨[⟨4, false, 0x12345678, [1, 2, 3, 4]⟩], [28]⟩ 0 2 0 true
    ⟨4, false, 0x12345678, [1, 2, 3, 4]⟩ rfl (by decide)

/-- C2 (code bug): on an allocate call that needs heap growth and whose
`sbrk` fails, the process aborts instead of `malloc` returning null: the
`assert((void *)block == request)` at malloc.c:97 runs *before* the
`request == (void *)-1` check at malloc.c:98, and on failure `request` is
the `-1` sentinel while `block` is the old break, so the assertion is
false and the `return NULL` is unreachable. -/
theorem c2_sbrk_failure_aborts (h : Heap) (size junk : Nat) (hs : size ≠ 0)
    (hgrow : h.blocks = [] ∨ find_free_block h.blocks size = none) :
    malloc h size junk false = CRes.fatal := by
  by_cases he : h.blocks = []
  · simp [malloc, hs, he, request_space, cassert]
  · rcases hgrow with he' | hf
    · exact absurd he' he
    · simp [malloc, hs, he, hf, request_space, cassert]

/-- C2 witness: the very first `allocate(1)` with `sbrk` failing aborts. -/
theorem c2_sbrk_failure_aborts_witness :
    malloc emptyHeap 1 0 false = CRes.fatal :=
  c2_sbrk_failure_aborts emptyHeap 1 0 (by decide) (Or.inl rfl)

/-- C5 (code bug): a growing `resize` whose internal allocation needs heap
growth and whose `sbrk` fails aborts the process (inside `request_space`,
same assertion-ordering slip as C2) instead of returning null with the
original region intact. -/
theorem c5_grow_failure_aborts (h : Heap) (i n junk : Nat) (b : BlockMeta)
    (hb : h.blocks.get? i = some b) (hn : b.size < n)
    (hff : find_free_block h.blocks n = none) :
    realloc h (some i) n junk false = CRes.fatal := by
  have hne : h.blocks ≠ [] := by
    intro hnil
    have hlt := get?_some_lt hb
    rw [hnil] at hlt
    simp at hlt
  have hn0 : n ≠ 0 := by omega
  have hm : malloc h n junk false = CRes.fatal := by
    simp [malloc, hn0, hne, hff, request_space, cassert]
  have hnot : ¬ n ≤ b.size := not_le.mpr hn
  simp only [realloc, hb]
  simp [hnot, hm]

/-- C5 witness: one in-use record of size 1; growing it to 2 with `sbrk`
failing aborts. -/
theorem c5_grow_failure_aborts_witness :
    realloc ⟨[⟨1, false, 0x12345678, [5]⟩], [25]⟩ (some 0) 2 0 false =
      CRes.fatal :=
  c5_grow_failure_aborts ⟨[⟨1, false, 0x12345678, [5]⟩], [25]⟩ 0 2 0
    ⟨1, false, 0x12345678, [5]⟩ rfl (by decide) rfl

/-- C6: `release` on a live record is fatal exactly when the record's
`free` flag is not `false` or its marker is not one of the two values
written by `allocate`; when the check passes it flips `free` to `true` and
sets the released marker, changing nothing else. -/
theorem c6_release_check (h : Heap) (i : Nat) (b : BlockMeta)
    (hb : h.blocks.get? i = some b) :
    (MallocC.free h (some i) = CRes.fatal ↔
      ¬(b.free = false ∧ (b.magic = 0x12345678 ∨ b.magic = 0x77777777))) ∧
    (b.free = false → (b.magic = 0x12345678 ∨ b.magic = 0x77777777) →
      MallocC.free h (some i) = CRes.ok
        ⟨modifyAt h.blocks i
          (fun c => { c with free := true, magic := 0x55555555 }),
         h.growth⟩) :=
  ⟨free_fatal_iff hb, fun hf hm => free_ok hb hf hm⟩

/-- C6 witness: releasing an already-released record (double free) is
fatal. -/
theorem c6_release_check_witness :
    MallocC.free ⟨[⟨1, true, 0x55555555, [0]⟩], [25]⟩ (some 0) =
      CRes.fatal :=
  (c6_release_check ⟨[⟨1, true, 0x55555555, [0]⟩], [25]⟩ 0
    ⟨1, true, 0x55555555, [0]⟩ rfl).1.mpr (by decide)

/-- C7 (code bug): `allocate(-1)`.  The argument converts to the `size_t`
value `2^64 - 1`, which passes the `if (size <= 0)` check (on an unsigned
type it only catches `0`), so the growth primitive *is* called — with the
delta `size + META_SIZE` wrapped modulo `2^64` to just `23` bytes — and
when that tiny growth succeeds `malloc` returns a non-null pointer to a
freshly appended record whose recorded size is `2^64 - 1`.  The claim says
null is returned, the growth primitive is never called and the chain is
unchanged; all three fail. -/
theorem c7_negative_request_grows :
    ∃ h', mallocFromInt emptyHeap (-1) 0 true = CRes.ok (some 0, h') ∧
      h'.blocks = [freshBlock SIZE_MAX 0] ∧ h'.growth = [23] :=
  ⟨_, rfl, rfl, rfl⟩

/-- C4 counterexample: `allocate(10)` carves a record of capacity 10 at
index 0; `release` it; `allocate(2)` recycles that record (requested size
`s = 2`, recorded size still 10).  Then `resize(p, 5)` with `5 > s = 2`
takes the `size <= block->size` branch and returns `p` itself, unchanged —
not a new pointer `q ≠ p` as the claim demands. -/
theorem c4_counterexample :
    malloc emptyHeap 10 7 true =
      CRes.ok (some 0, ⟨[⟨10, false, 0x12345678, List.replicate 10 7⟩], [34]⟩) ∧
    MallocC.free ⟨[⟨10, false, 0x12345678, List.replicate 10 7⟩], [34]⟩
        (some 0) =
      CRes.ok ⟨[⟨10, true, 0x55555555, List.replicate 10 7⟩], [34]⟩ ∧
    malloc ⟨[⟨10, true, 0x55555555, List.replicate 10 7⟩], [34]⟩ 2 7 true =
      CRes.ok (some 0, ⟨[⟨10, false, 0x77777777, List.replicate 10 7⟩], [34]⟩) ∧
    realloc ⟨[⟨10, false, 0x77777777, List.replicate 10 7⟩], [34]⟩ (some 0)
        5 7 true =
      CRes.ok (some 0, ⟨[⟨10, false, 0x77777777, List.replicate 10 7⟩], [34]⟩) := by
  refine ⟨?_, ?_, ?_, ?_⟩ <;> decide

theorem take_append_own {α : Type} (l l' : List α) :
    (l ++ l').take l.length = l := by
  induction l with
  | nil => rfl
  | cons a t ih => simp [ih]

/-- C4 (amended): for a pointer `p` whose owning record is currently in
use with recorded size `S` (equal to its payload length) and any request
`n > S`, a growing `resize` with succeeding `sbrk` returns a pointer
`q ≠ p`, the first `S` bytes of `q`'s payload equal `p`'s payload at the
time of the call, and `p`'s record is left free with the released marker
(available for later first-fit reuse).  The original claim's threshold,
the size `s` originally *requested* for `p`, is wrong when `allocate(s)`
recycled a larger free record: for `s < n ≤ S` the code returns `p`
itself (see the counterexample). -/
theorem c4_resize_grow (h : Heap) (p n junk : Nat) (b : BlockMeta)
    (hb : h.blocks.get? p = some b) (hlen : b.data.length = b.size)
    (hfree : b.free = false)
    (hmagic : b.magic = 0x12345678 ∨ b.magic = 0x77777777)
    (hn : b.size < n) :
    ∃ q h', realloc h (some p) n junk true = CRes.ok (some q, h') ∧
      q ≠ p ∧
      (∃ bq, h'.blocks.get? q = some bq ∧ bq.data.take b.size = b.data) ∧
      h'.blocks.get? p = some { b with free := true, magic := 0x55555555 } := by
  have hn0 : n ≠ 0 := by omega
  have hnot : ¬ n ≤ b.size := not_le.mpr hn
  have hplt : p < h.blocks.length := get?_some_lt hb
  obtain ⟨j, h1, hm1⟩ := malloc_true_ok h n junk hn0
  have hjp : j ≠ p := by
    rcases malloc_ok_cases hm1 with ⟨hj, _, _⟩ | ⟨c, hc, hcf, _, _, _⟩
    · omega
    · intro e
      rw [e, hb] at hc
      cases hc
      rw [hcf] at hfree
      cases hfree
  have hpb : h1.blocks.get? p = some b := by
    rw [malloc_frame hm1 (Ne.symm hjp) hplt]
    exact hb
  obtain ⟨bj, hbj⟩ := malloc_some_get hm1
  have hb2 : (modifyAt h1.blocks j
      (fun nb => { nb with
        data := b.data.take b.size ++ nb.data.drop b.size })).get? p =
      some b := by
    rw [get?_modifyAt_ne _ _ _ _ (Ne.symm hjp)]
    exact hpb
  have hfr := @free_ok
    ⟨modifyAt h1.blocks j
      (fun nb => { nb with
        data := b.data.take b.size ++ nb.data.drop b.size }), h1.growth⟩
    p b hb2 hfree hmagic
  refine ⟨j,
    ⟨modifyAt (modifyAt h1.blocks j
        (fun nb => { nb with
          data := b.data.take b.size ++ nb.data.drop b.size })) p
      (fun c => { c with free := true, magic := 0x55555555 }),
     h1.growth⟩, ?_, hjp, ?_, ?_⟩
  · simp only [realloc, hb, hnot, if_false, hm1, hpb, hfr]
  · refine ⟨{ bj with
      data := b.data.take b.size ++ bj.data.drop b.size }, ?_, ?_⟩
    · rw [get?_modifyAt_ne _ _ _ _ hjp]
      exact get?_modifyAt_self _ hbj
    · have hA : b.data.take b.size = b.data := by
        rw [← hlen]
        exact List.take_length b.data
      rw [hA]
      calc (b.data ++ bj.data.drop b.size).take b.size
          = (b.data ++ bj.data.drop b.size).take b.data.length := by rw [hlen]
        _ = b.data := take_append_own _ _
  · exact get?_modifyAt_self _ hb2

/-- C4 witness: growing a freshly carved record of size 2 (contents
`[3, 4]`) to 3 moves it: a new pointer comes back, the first 2 bytes are
preserved, and the old record is left free with the released marker. -/
theorem c4_resize_grow_witness :
    ∃ q h',
      realloc ⟨[⟨2, false, 0x12345678, [3, 4]⟩], [26]⟩ (some 0) 3 0 true =
        CRes.ok (some q, h') ∧
      q ≠ 0 ∧
      (∃ bq, h'.blocks.get? q = some bq ∧ bq.data.take 2 = [3, 4]) ∧
      h'.blocks.get? 0 = some ⟨2, true, 0x55555555, [3, 4]⟩ :=
  c4_resize_grow ⟨[⟨2, false, 0x12345678, [3, 4]⟩], [26]⟩ 0 3 0
    ⟨2, false, 0x12345678, [3, 4]⟩ rfl (by decide) rfl (Or.inl rfl) (by decide)

/-- C9 counterexample: one in-use record; `allocate(1)` succeeds by
appending record 1 at the tail.  Record 0 is not the appended record, and
its `size`, `free`, marker and payload are untouched — but its `next`
link changes from absent to record 1 (`last->next = block` at
malloc.c:107), so "the size, next, free flag, and marker of every other
record are unchanged" fails. -/
theorem c9_counterexample :
    ∃ h2, malloc ⟨[⟨1, false, 0x12345678, [5]⟩], [25]⟩ 1 6 true =
        CRes.ok (some 1, h2) ∧
      nextIdx ⟨[⟨1, false, 0x12345678, [5]⟩], [25]⟩ 0 = none ∧
      nextIdx h2 0 = some 1 ∧
      h2.blocks.get? 0 = some ⟨1, false, 0x12345678, [5]⟩ :=
  ⟨⟨[⟨1, false, 0x12345678, [5]⟩, freshBlock 1 6], [25, 25]⟩,
    by decide, by decide, by decide, by decide⟩

/-- C9 (amended): every successful allocate either appends exactly one
fresh record at the tail — leaving the size, free flag, marker, payload
and the `next` links of all records unchanged *except* the previous
tail's `next`, which goes from absent to the new record — or flips
exactly one existing record's `free` flag from `true` to `false` (setting
its marker to recycled), leaving every other record and every `next` link
unchanged. -/
theorem c9_alloc_frame (h : Heap) (size junk : Nat) (ok : Bool) (p : Nat)
    (h' : Heap) (hm : malloc h size junk ok = CRes.ok (some p, h')) :
    (p = h.blocks.length ∧ h'.blocks = h.blocks ++ [freshBlock size junk] ∧
      (∀ j, j < h.blocks.length → h'.blocks.get? j = h.blocks.get? j) ∧
      (∀ j, j + 1 < h.blocks.length → nextIdx h' j = nextIdx h j) ∧
      (h.blocks ≠ [] → nextIdx h (h.blocks.length - 1) = none ∧
        nextIdx h' (h.blocks.length - 1) = some h.blocks.length)) ∨
    (∃ b, h.blocks.get? p = some b ∧ b.free = true ∧ size ≤ b.size ∧
      h'.blocks = modifyAt h.blocks p
        (fun c => { c with free := false, magic := 0x77777777 }) ∧
      h'.growth = h.growth ∧
      (∀ j, j ≠ p → h'.blocks.get? j = h.blocks.get? j) ∧
      (∀ j, nextIdx h' j = nextIdx h j)) := by
  rcases malloc_ok_cases hm with ⟨hp, hb, hg⟩ | ⟨b, hbi, hbf, hbs, hb, hg⟩
  · left
    have hl : h'.blocks.length = h.blocks.length + 1 := by rw [hb]; simp
    refine ⟨hp, hb, ?_, ?_, ?_⟩
    · intro j hj
      rw [hb]
      exact get?_append_lt _ _ _ hj
    · intro j hj
      unfold nextIdx
      rw [hl, if_pos (by omega), if_pos hj]
    · intro hne
      have hpos : 0 < h.blocks.length := List.length_pos.mpr hne
      constructor
      · unfold nextIdx
        rw [if_neg (by omega)]
      · unfold nextIdx
        rw [hl, if_pos (by omega)]
        congr 1
        omega
  · right
    have hl : h'.blocks.length = h.blocks.length := by
      rw [hb]
      exact length_modifyAt _ _ _
    refine ⟨b, hbi, hbf, hbs, hb, hg, ?_, ?_⟩
    · intro j hj
      rw [hb]
      exact get?_modifyAt_ne _ _ _ _ hj
    · intro j
      unfold nextIdx
      rw [hl]

/-- C9 witness: recycling the single free record changes no `next` link. -/
theorem c9_alloc_frame_witness :
    nextIdx ⟨[⟨1, false, 0x77777777, [9]⟩], [25]⟩ 0 =
      nextIdx ⟨[⟨1, true, 0x55555555, [9]⟩], [25]⟩ 0 := by
  rcases c9_alloc_frame ⟨[⟨1, true, 0x55555555, [9]⟩], [25]⟩ 1 0 true 0
      ⟨[⟨1, false, 0x77777777, [9]⟩], [25]⟩ (by decide) with
    ⟨hp, _⟩ | ⟨b, _, _, _, _, _, _, hnx⟩
  · exact absurd hp (by decide)
  · exact hnx 0

/-- C8: `zeroedAllocate` fails immediately, without calling `allocate`
and without touching the state, exactly on the checked overflow condition
`count > 0 ∧ elementSize > SIZE_MAX / count`; otherwise the product does
not overflow `size_t` and the call delegates to
`allocate(count * elementSize)` (same outcome, same resulting state up to
the zeroing), and on success the returned region's first
`count * elementSize` bytes all read as zero. -/
theorem c8_calloc_spec (h : Heap) (nelem elsize junk : Nat) (ok : Bool) :
    ((0 < nelem ∧ SIZE_MAX / nelem < elsize) →
      calloc h nelem elsize junk ok = CRes.ok (none, h)) ∧
    (¬(0 < nelem ∧ SIZE_MAX / nelem < elsize) →
      nelem * elsize ≤ SIZE_MAX ∧
      (calloc h nelem elsize junk ok = CRes.fatal ↔
        malloc h (nelem * elsize) junk ok = CRes.fatal) ∧
      (∀ h', calloc h nelem elsize junk ok = CRes.ok (none, h') ↔
        malloc h (nelem * elsize) junk ok = CRes.ok (none, h')) ∧
      (∀ i h', calloc h nelem elsize junk ok = CRes.ok (some i, h') →
        ∃ h'' b, malloc h (nelem * elsize) junk ok = CRes.ok (some i, h'') ∧
          h'.blocks.get? i = some b ∧
          b.data.take (nelem * elsize) =
            List.replicate (nelem * elsize) 0)) := by
  constructor
  · intro hov
    simp [calloc, hov]
  · intro hov
    have hle : nelem * elsize ≤ SIZE_MAX := by
      rcases Nat.eq_zero_or_pos nelem with h0 | h0
      · simp [h0]
      · have he : elsize ≤ SIZE_MAX / nelem := by
          by_contra hc
          push_neg at hc
          exact hov ⟨h0, hc⟩
        calc nelem * elsize ≤ nelem * (SIZE_MAX / nelem) :=
              Nat.mul_le_mul_left _ he
          _ = (SIZE_MAX / nelem) * nelem := Nat.mul_comm _ _
          _ ≤ SIZE_MAX := Nat.div_mul_le_self _ _
    have hbig : SIZE_MAX < SIZE_T_MOD := by decide
    have hmod : (nelem * elsize) % SIZE_T_MOD = nelem * elsize :=
      Nat.mod_eq_of_lt (by omega)
    refine ⟨hle, ?_⟩
    cases hm : malloc h (nelem * elsize) junk ok with
    | fatal =>
      refine ⟨?_, ?_, ?_⟩
      · simp [calloc, hov, hmod, hm]
      · intro h'
        simp [calloc, hov, hmod, hm]
      · intro i h' hc
        rw [calloc, if_neg hov] at hc
        simp only [hmod, hm] at hc
        cases hc
    | ok r =>
      obtain ⟨ro, h1⟩ := r
      cases ro with
      | none =>
        refine ⟨?_, ?_, ?_⟩
        · simp [calloc, hov, hmod, hm]
        · intro h'
          simp [calloc, hov, hmod, hm]
        · intro i h' hc
          rw [calloc, if_neg hov] at hc
          simp only [hmod, hm] at hc
          simp at hc
      | some i =>
        obtain ⟨bi, hbi⟩ := malloc_some_get hm
        refine ⟨?_, ?_, ?_⟩
        · simp [calloc, hov, hmod, hm]
        · intro h'
          simp [calloc, hov, hmod, hm]
        · intro i' h' hc
          rw [calloc, if_neg hov] at hc
          simp only [hmod, hm] at hc
          simp only [CRes.ok.injEq, Prod.mk.injEq, Option.some.injEq] at hc
          refine ⟨h1, { bi with
            data := List.replicate (nelem * elsize) 0 ++
              bi.data.drop (nelem * elsize) }, ?_, ?_, ?_⟩
          · rw [← hc.1]
          · rw [← hc.2, ← hc.1]
            exact get?_modifyAt_self _ hbi
          · calc (List.replicate (nelem * elsize) 0 ++
                bi.data.drop (nelem * elsize)).take (nelem * elsize)
                = (List.replicate (nelem * elsize) 0 ++
                  bi.data.drop (nelem * elsize)).take
                    (List.replicate (nelem * elsize) (0 : Nat)).length := by
                  rw [List.length_replicate]
              _ = List.replicate (nelem * elsize) 0 := take_append_own _ _

/-- C8 witness: `zeroedAllocate(2, 2^63)` overflows (`2^63 > SIZE_MAX/2`)
and returns null from the empty state without any growth call. -/
theorem c8_calloc_spec_witness :
    calloc emptyHeap 2 (2 ^ 63) 0 true = CRes.ok (none, emptyHeap) :=
  (c8_calloc_spec emptyHeap 2 (2 ^ 63) 0 true).1 (by decide)

/-! ### Invariant preservation (C10) -/

/-- `malloc` returns null only on a zero-size request, leaving the state
unchanged (a failed growth aborts instead, see C2). -/
theorem malloc_ok_none {h h' : Heap} {size junk : Nat} {ok : Bool}
    (hm : malloc h size junk ok = CRes.ok (none, h')) : h' = h := by
  by_cases hs : size = 0
  · simp [malloc, hs] at hm
    exact hm.symm
  · by_cases he : h.blocks = []
    · cases ok <;> simp [malloc, hs, he, request_space, cassert] at hm
    · cases hf : find_free_block h.blocks size with
      | none => cases ok <;>
          simp [malloc, hs, he, hf, request_space, cassert] at hm
      | some i => simp [malloc, hs, he, hf] at hm

/-- A `release` that returns characterizes its state change completely. -/
theorem free_ok_char {h h' : Heap} {i : Nat}
    (hf : free h (some i) = CRes.ok h') :
    ∃ b, h.blocks.get? i = some b ∧
      h' = ⟨modifyAt h.blocks i
        (fun c => { c with free := true, magic := 0x55555555 }),
       h.growth⟩ := by
  cases hb : h.blocks.get? i with
  | none =>
    simp only [free, hb] at hf
    cases hf
  | some b =>
    refine ⟨b, rfl, ?_⟩
    by_cases hc : b.free = false ∧ (b.magic = 0x12345678 ∨ b.magic = 0x77777777)
    · rw [free_ok hb hc.1 hc.2] at hf
      injection hf with hf
      exact hf.symm
    · rw [(free_fatal_iff hb).mpr hc] at hf
      simp at hf

/-- Changing only a record's payload preserves the marker invariant. -/
theorem magicInv_modify_data (h : Heap) (i : Nat) (df : BlockMeta → List Nat)
    (g : List Nat) (hI : MagicInv h) :
    MagicInv ⟨modifyAt h.blocks i (fun b => { b with data := df b }), g⟩ := by
  intro c hc
  rcases mem_modifyAt_cases hc with hc | ⟨a, ha, hca⟩
  · exact hI c hc
  · subst hca
    exact hI a ha

theorem magicInv_malloc {h h' : Heap} {size junk : Nat} {ok : Bool}
    {r : Option Nat} (hI : MagicInv h)
    (hm : malloc h size junk ok = CRes.ok (r, h')) : MagicInv h' := by
  cases r with
  | none =>
    rw [malloc_ok_none hm]
    exact hI
  | some p =>
    rcases malloc_ok_cases hm with ⟨_, hb, _⟩ | ⟨b, _, _, _, hb, _⟩
    · intro c hc
      rw [hb] at hc
      rcases List.mem_append.mp hc with hc | hc
      · exact hI c hc
      · simp only [List.mem_singleton] at hc
        subst hc
        refine ⟨Or.inl rfl, ?_⟩
        simp [freshBlock]
    · intro c hc
      rw [hb] at hc
      rcases mem_modifyAt_cases hc with hc | ⟨a, ha, hca⟩
      · exact hI c hc
      · subst hca
        refine ⟨Or.inr (Or.inl rfl), ?_⟩
        simp

theorem magicInv_free {h h' : Heap} {ptr : Option Nat} (hI : MagicInv h)
    (hf : free h ptr = CRes.ok h') : MagicInv h' := by
  cases ptr with
  | none =>
    simp only [free, CRes.ok.injEq] at hf
    rw [← hf]
    exact hI
  | some i =>
    obtain ⟨b, _, h2⟩ := free_ok_char hf
    subst h2
    intro c hc
    rcases mem_modifyAt_cases hc with hc | ⟨a, ha, hca⟩
    · exact hI c hc
    · subst hca
      exact ⟨Or.inr (Or.inr rfl), by simp⟩

theorem magicInv_realloc {h h' : Heap} {ptr : Option Nat} {size junk : Nat}
    {ok : Bool} {r : Option Nat} (hI : MagicInv h)
    (hr : realloc h ptr size junk ok = CRes.ok (r, h')) : MagicInv h' := by
  cases ptr with
  | none => exact magicInv_malloc hI hr
  | some i =>
    cases hb : h.blocks.get? i with
    | none =>
      simp only [realloc, hb] at hr
      cases hr
    | some b =>
      simp only [realloc, hb] at hr
      by_cases hsz : size ≤ b.size
      · rw [if_pos hsz] at hr
        simp only [CRes.ok.injEq, Prod.mk.injEq] at hr
        rw [← hr.2]
        exact hI
      · rw [if_neg hsz] at hr
        cases hm : malloc h size junk ok with
        | fatal =>
          simp only [hm] at hr
          cases hr
        | ok rr =>
          obtain ⟨ro, h1⟩ := rr
          have hI1 : MagicInv h1 := magicInv_malloc hI hm
          cases ro with
          | none =>
            simp only [hm, CRes.ok.injEq, Prod.mk.injEq] at hr
            rw [← hr.2]
            exact hI1
          | some j =>
            cases hbo : h1.blocks.get? i with
            | none =>
              simp only [hm, hbo] at hr
              cases hr
            | some bOld =>
              cases hfr : free ⟨modifyAt h1.blocks j
                  (fun nb => { nb with
                    data := bOld.data.take bOld.size ++
                      nb.data.drop bOld.size }), h1.growth⟩ (some i) with
              | fatal =>
                simp only [hm, hbo, hfr] at hr
                cases hr
              | ok h3 =>
                simp only [hm, hbo, hfr, CRes.ok.injEq, Prod.mk.injEq] at hr
                rw [← hr.2]
                exact magicInv_free (magicInv_modify_data h1 j _ _ hI1) hfr

theorem magicInv_calloc {h h' : Heap} {nelem elsize junk : Nat} {ok : Bool}
    {r : Option Nat} (hI : MagicInv h)
    (hc : calloc h nelem elsize junk ok = CRes.ok (r, h')) : MagicInv h' := by
  by_cases hov : 0 < nelem ∧ SIZE_MAX / nelem < elsize
  · simp only [calloc, if_pos hov, CRes.ok.injEq, Prod.mk.injEq] at hc
    rw [← hc.2]
    exact hI
  · simp only [calloc, if_neg hov] at hc
    cases hm : malloc h ((nelem * elsize) % SIZE_T_MOD) junk ok with
    | fatal =>
      simp only [hm] at hc
      cases hc
    | ok rr =>
      obtain ⟨ro, h1⟩ := rr
      have hI1 : MagicInv h1 := magicInv_malloc hI hm
      cases ro with
      | none =>
        simp only [hm, CRes.ok.injEq, Prod.mk.injEq] at hc
        rw [← hc.2]
        exact hI1
      | some i =>
        simp only [hm, CRes.ok.injEq, Prod.mk.injEq] at hc
        rw [← hc.2]
        exact magicInv_modify_data h1 i _ _ hI1

/-- C10: in every chain state reachable from the empty chain by completed
allocate, release, resize and zeroed-allocate calls, each record's marker
is one of the three constants `0x12345678` (freshly carved), `0x77777777`
(recycled) and `0x55555555` (released), and its `free` flag is set exactly
when the marker is the released one. -/
theorem c10_magic_invariant (h : Heap) (hr : Reachable h) : MagicInv h := by
  induction hr with
  | empty =>
    intro b hb
    simp [emptyHeap] at hb
  | mstep _ hm ih => exact magicInv_malloc ih hm
  | fstep _ hf ih => exact magicInv_free ih hf
  | rstep _ hre ih => exact magicInv_realloc ih hre
  | cstep _ hc ih => exact magicInv_calloc ih hc

/-- C10 witness: the state after one successful `allocate(1)`. -/
theorem c10_magic_invariant_witness :
    MagicInv ⟨[freshBlock 1 0], [25]⟩ :=
  c10_magic_invariant ⟨[freshBlock 1 0], [25]⟩
    (@Reachable.mstep emptyHeap ⟨[freshBlock 1 0], [25]⟩ 1 0 true (some 0)
      Reachable.empty (by decide))

end MallocC
